import Mathlib

/-!
# Verification of the nelpy event-boundary detection core

Shallow embedding of the three core functions of `nelpy/utils.py`:

* `get_contiguous_segments` (in-memory branch),
* `find_threshold_crossing_events`,
* `get_events_boundaries`,

together with proofs of the specified properties.  Sample values are
modelled as rationals (the source operates on floating-point arrays;
the spec abstracts them as real numbers).  Python exceptions
(`NotImplementedError`, `AssertionError`, `TypeError`, `IndexError`)
are modelled with `Except String`.  Numpy primitives used by the
source (`np.searchsorted` with its default `side=left`, fancy
indexing with negative-index wraparound, `np.unique` with
`return_index=True`, `np.diff`, `np.median`) are embedded as the
list functions below.
-/

/-- The index one past the end of the maximal run of indices `k ≥ i` with
`p` true, starting from `i` (assuming `p i`): keeps advancing while the next
index is in range and satisfies `p`.  Fuel-based structural recursion so that
the kernel can evaluate it; `runEndF p n (n - i) i` has enough fuel to scan
to the end of the array.  This models how `itertools.groupby` (used by
`find_threshold_crossing_events`) extends a group of equal key values. -/
def runEndF (p : Nat → Bool) (n : Nat) : Nat → Nat → Nat
  | 0, i => i
  | fuel+1, i => if i + 1 < n then (if p (i+1) then runEndF p n fuel (i+1) else i) else i

/-- All maximal runs of indices in `[i, n)` on which `p` is true, as inclusive
`(start, stop)` pairs, in scan order.  This models the
`groupby(enumerate(cross_threshold), key=itemgetter(1))` loop of
`find_threshold_crossing_events`, which emits `[v[0][0], v[-1][0]]` for every
group whose key is truthy. -/
def runsFromF (p : Nat → Bool) (n : Nat) : Nat → Nat → List (Nat × Nat)
  | 0, _ => []
  | fuel+1, i =>
    if i < n then
      if p i then
        (i, runEndF p n (n - i) i) :: runsFromF p n fuel (runEndF p n (n - i) i + 1)
      else runsFromF p n fuel (i+1)
    else []

/-- Maximal runs of `true` in a boolean list (the `cross_threshold` 0/1
array of the source), as inclusive index pairs. -/
def eventRuns (b : List Bool) : List (Nat × Nat) :=
  runsFromF (fun i => b.getD i false) b.length b.length 0

/-- The slice maximum `x[s:(t+1)].max()` of the source: maximum of the inclusive slice
`x[s..t]`.  In every use the slice is nonempty (`s ≤ t < x.length`), so the
`x.getD s 0` seed is the first slice element. -/
def sliceMax (x : List ℚ) (s t : Nat) : ℚ :=
  ((x.drop s).take (t + 1 - s)).foldl max (x.getD s 0)

/-- Embedding of `find_threshold_crossing_events(x, threshold, mode=mode)`.
The predicate is `x[i] < threshold` for `mode=below` and `x[i] > threshold`
for `mode=above` (both strict, matching `np.where(x < threshold, 1, 0)`
resp. `np.where(x > threshold, 1, 0)`); any other mode raises
`NotImplementedError`.  Returns the maximal runs and, for each run, the
maximum of `x` over the run (the source computes `x[v[0][0]:(v[-1][0]+1)].max()`
for both modes). -/
def find_threshold_crossing_events (x : List ℚ) (threshold : ℚ) (mode : String) :
    Except String (List (Nat × Nat) × List ℚ) :=
  if mode = "below" then
    let el := eventRuns (x.map (fun v => decide (v < threshold)))
    .ok (el, el.map (fun r => sliceMax x r.1 r.2))
  else if mode = "above" then
    let el := eventRuns (x.map (fun v => decide (v > threshold)))
    .ok (el, el.map (fun r => sliceMax x r.1 r.2))
  else .error ("NotImplementedError: mode " ++ mode ++ " not understood for find_threshold_crossing_events")

/-- Embedding of `np.searchsorted(a, v)` with the default `side=left`: for `a` sorted,
the left insertion point of `v`, i.e. the number of entries of `a` that are
strictly below `v`. -/
def searchsortedLeft (a : List Nat) (v : Nat) : Nat :=
  a.countP (fun u => decide (u < v))

/-- Numpy integer indexing `l[i]` with negative-index wraparound: `i` is
valid iff `-l.length ≤ i < l.length`, a negative `i` counts from the end,
and anything else raises `IndexError`. -/
def intGet {α : Type} (l : List α) (i : Int) : Except String α :=
  let j := if i < 0 then i + l.length else i
  if h : 0 ≤ j ∧ j < l.length then
    .ok (l.get ⟨j.toNat, by omega⟩)
  else .error "IndexError: index out of bounds"

/-- Numpy integer-array (fancy) indexing `l[idx]`. -/
def fancyIndex {α : Type} (l : List α) (idx : List Int) : Except String (List α) :=
  idx.mapM (intGet l)

/-- Numpy boolean-mask indexing `l[mask]`: keep the entries whose mask
position is `True`. -/
def maskFilter {α : Type} (mask : List Bool) (l : List α) : List α :=
  ((l.zip mask).filter (fun pr => pr.2)).map Prod.fst

/-- Embedding of `np.unique(s, return_index=True)`: the second return value, i.e. for
each distinct value of `s` in ascending order, the index of its first
occurrence in `s`. -/
def uniqueFirstIdx (s : List Nat) : List Nat :=
  (List.insertionSort (· ≤ ·) s.dedup).map (fun v => s.indexOf v)

/-- The primary-threshold pass of `get_events_boundaries`: the
`find_threshold_crossing_events` call at `PrimaryThreshold` followed by the
`minThresholdLength` filter (durations `(stop - start + 1) * ds`, applied
only when a `minThresholdLength` is given and there is at least one run). -/
def survivingEvents (x : List ℚ) (pth : ℚ) (minThL : Option ℚ) (ds : ℚ)
    (mode : String) : Except String (List (Nat × Nat)) :=
  match find_threshold_crossing_events x pth mode with
  | .error e => .error e
  | .ok (events, _) =>
    match minThL with
    | some m =>
      if 0 < events.length then
        .ok (maskFilter
          (events.map (fun ev => decide (((ev.2 : ℚ) - (ev.1 : ℚ) + 1) * ds ≥ m))) events)
      else .ok events
    | none => .ok events
  /- the `_` discards `eventmax`, as the assignment `events, _ = ...` in the source does -/

/-- The directional-constraint check of `get_events_boundaries`: an
`assert SecondaryThreshold <= PrimaryThreshold` for `mode=above`,
`assert SecondaryThreshold >= PrimaryThreshold` for `mode=below`, and
`NotImplementedError` otherwise. -/
def checkThresholds (pth sth : ℚ) (mode : String) : Except String Unit :=
  if mode = "above" then
    if sth ≤ pth then .ok () else .error "AssertionError: Secondary Threshold by definition should include more data than Primary Threshold"
  else if mode = "below" then
    if sth ≥ pth then .ok () else .error "AssertionError: Secondary Threshold by definition should include more data than Primary Threshold"
  else .error ("NotImplementedError: mode " ++ mode ++ " not understood for find_threshold_crossing_events")

/-- Result type `bounds, maxes, events` of `get_events_boundaries`. -/
abbrev EventTriple := List (Nat × Nat) × List ℚ × List (Nat × Nat)

/-- One duration filter stage of `get_events_boundaries`: the mask is
computed from the current `bounds` rows and applied to all three parallel
arrays. -/
def durFilter (keep : Nat × Nat → Bool) (b : List (Nat × Nat)) (m : List ℚ)
    (e : List (Nat × Nat)) : EventTriple :=
  let mask := b.map keep
  (maskFilter mask b, maskFilter mask m, maskFilter mask e)

/-- The deduplication stage of `get_events_boundaries`:
`_, unique_idx = np.unique(bounds[:,0], return_index=True)` followed by
`bounds[unique_idx,:]`, `maxes[unique_idx]`, `events[unique_idx,:]`. -/
def uniqueStage (b : List (Nat × Nat)) (m : List ℚ) (e : List (Nat × Nat)) :
    EventTriple :=
  let uidx := uniqueFirstIdx (b.map Prod.fst)
  (uidx.map (fun i => b.getD i (0, 0)),
   uidx.map (fun i => m.getD i 0),
   uidx.map (fun i => e.getD i (0, 0)))

/-- Pipeline of `get_events_boundaries` up to (and including) the `minLength` /
`maxLength` filters — everything before the final deduplication.  The
pipeline: primary pass and `minThresholdLength` filter; early empty return;
threshold-direction assert; secondary pass; window assignment via
`np.searchsorted(bounds[:,0], events[:,0]) - 1` and fancy indexing (negative
indices wrap around); `minLength` filter (`durations >= minLength`);
`maxLength` filter (`durations <= maxLength`).  Each filter is guarded by
`len(events) > 0` exactly as in the source. -/
def geb_filtered (x : List ℚ) (pth sth : ℚ) (minThL minL maxL : Option ℚ)
    (ds : ℚ) (mode : String) : Except String EventTriple :=
  match survivingEvents x pth minThL ds mode with
  | .error e => .error e
  | .ok events1 =>
    if events1.length = 0 then .ok ([], [], [])
    else
      match checkThresholds pth sth mode with
      | .error e => .error e
      | .ok _ =>
        match find_threshold_crossing_events x sth mode with
        | .error e => .error e
        | .ok (bounds0, broaderMaxes) =>
          let outer := events1.map
            (fun ev => (searchsortedLeft (bounds0.map Prod.fst) ev.1 : Int) - 1)
          match fancyIndex bounds0 outer with
          | .error e => .error e
          | .ok bounds1 =>
            match fancyIndex broaderMaxes outer with
            | .error e => .error e
            | .ok maxes1 =>
              let s2 :=
                match minL with
                | none => (bounds1, maxes1, events1)
                | some mv =>
                  if 0 < events1.length then
                    durFilter (fun bb => decide (((bb.2 : ℚ) - (bb.1 : ℚ) + 1) * ds ≥ mv))
                      bounds1 maxes1 events1
                  else (bounds1, maxes1, events1)
              let s3 :=
                match maxL with
                | none => s2
                | some mv =>
                  if 0 < s2.2.2.length then
                    durFilter (fun bb => decide (((bb.2 : ℚ) - (bb.1 : ℚ) + 1) * ds ≤ mv))
                      s2.1 s2.2.1 s2.2.2
                  else s2
              .ok s3

/-- Embedding of `get_events_boundaries` on a (squeezed, one-dimensional)
sample list: the filtered pipeline, the final `len(events) == 0` empty
return, and otherwise the deduplication stage.  The thresholds and `ds` are
taken as explicit arguments: the `None` defaults in the source for the thresholds
(`mean(x) + 3*std(x)` resp. `mean(x)`) are a local pre-resolution step that
no verified claim exercises. -/
def get_events_boundaries (x : List ℚ) (pth sth : ℚ)
    (minThL minL maxL : Option ℚ) (ds : ℚ) (mode : String) :
    Except String EventTriple :=
  match geb_filtered x pth sth minThL minL maxL ds mode with
  | .error e => .error e
  | .ok t =>
    if t.2.2.length = 0 then .ok ([], [], [])
    else .ok (uniqueStage t.1 t.2.1 t.2.2)

/-- Embedding of `np.squeeze`: drop the axes of extent 1 from a shape. -/
def squeezeShape (shape : List Nat) : List Nat :=
  shape.filter (fun d => decide (d ≠ 1))

/-- Embedding of `get_events_boundaries` including the initial `x = x.squeeze()` /
`if x.ndim > 1: raise TypeError` step, for an input of arbitrary shape with
`x` its flat data (row-major); when the squeezed shape is at most
one-dimensional the flat data is the sample sequence. -/
def get_events_boundaries_nd (shape : List Nat) (x : List ℚ) (pth sth : ℚ)
    (minThL minL maxL : Option ℚ) (ds : ℚ) (mode : String) :
    Except String EventTriple :=
  if 1 < (squeezeShape shape).length then
    .error "TypeError: multidimensional arrays not supported!"
  else get_events_boundaries x pth sth minThL minL maxL ds mode

/-- Embedding of `np.diff`: consecutive differences. -/
def npDiff (l : List ℚ) : List ℚ :=
  (l.zip l.tail).map (fun pr => pr.2 - pr.1)

/-- Embedding of `np.median`: sort, take the middle element for odd length, the mean of
the two middle elements for even length. -/
def npMedian (l : List ℚ) : ℚ :=
  let s := List.insertionSort (· ≤ ·) l
  if s.length % 2 = 1 then s.getD (s.length / 2) 0
  else (s.getD (s.length / 2 - 1) 0 + s.getD (s.length / 2) 0) / 2

/-- Embedding of `np.argwhere(np.diff(data) >= 2*step)` in `get_contiguous_segments`:
the positions `i` with `data[i+1] - data[i] ≥ 2 * step`. -/
def gcsBreaks (data : List ℚ) (step : ℚ) : List Nat :=
  (List.range (npDiff data).length).filter
    (fun i => decide ((npDiff data).getD i 0 ≥ 2 * step))

/-- Embedding of the in-memory branch of `get_contiguous_segments(data, step)`:
`step` defaults to the median of the consecutive differences; the break
positions are where the difference is `≥ 2*step`;
`starts = np.insert(breaks+1, 0, 0)`, `stops = np.append(breaks, len(data)-1)`;
the result pairs `data[starts]` with `data[stops]` (fancy indexing, which
raises `IndexError` when an index is out of bounds — as happens for empty
`data`, where `starts = [0]`). -/
def get_contiguous_segments (data : List ℚ) (stepArg : Option ℚ) :
    Except String (List (ℚ × ℚ)) :=
  let step := match stepArg with
    | some s => s
    | none => npMedian (npDiff data)
  let breaks := gcsBreaks data step
  let starts : List Int := 0 :: breaks.map (fun b => Int.ofNat b + 1)
  let stops : List Int := breaks.map (fun b => Int.ofNat b) ++ [(data.length : Int) - 1]
  match fancyIndex data starts with
  | .error e => .error e
  | .ok sv =>
    match fancyIndex data stops with
    | .error e => .error e
    | .ok tv => .ok (sv.zip tv)

/-- The index pairs `starts.zip stops` of `get_contiguous_segments`, with a
generalized first start `a`: `(a :: (bs+1)).zip (bs ++ [last])`.  For break
list `bs` this pairs the first index of each run with the last index of that run. -/
def boundPairs (a : Nat) (bs : List Nat) (last : Nat) : List (Nat × Nat) :=
  (a :: bs.map (fun b => b + 1)).zip (bs ++ [last])

/-- The index pairs `(start, stop)` (inclusive, in index space) produced by
`get_contiguous_segments data None`: `starts = 0 :: breaks+1` zipped with
`stops = breaks ++ [len-1]`. -/
def gcsIndexPairs (data : List ℚ) : List (Nat × Nat) :=
  boundPairs 0 (gcsBreaks data (npMedian (npDiff data))) (data.length - 1)

/-! ## Properties of the run scanner -/

theorem runEndF_ge (p : Nat → Bool) (n : Nat) :
    ∀ f i, i ≤ runEndF p n f i := by
  intro f
  induction f with
  | zero => intro i; exact Nat.le_refl i
  | succ f ih =>
    intro i
    simp only [runEndF]
    split
    · split
      · exact Nat.le_trans (Nat.le_succ i) (ih (i+1))
      · exact Nat.le_refl i
    · exact Nat.le_refl i

theorem runEndF_lt (p : Nat → Bool) (n : Nat) :
    ∀ f i, i < n → runEndF p n f i < n := by
  intro f
  induction f with
  | zero => intro i h; exact h
  | succ f ih =>
    intro i h
    simp only [runEndF]
    split
    · split
      · exact ih (i+1) (by omega)
      · exact h
    · exact h

theorem runEndF_true (p : Nat → Bool) (n : Nat) :
    ∀ f i, p i = true → ∀ k, i ≤ k → k ≤ runEndF p n f i → p k = true := by
  intro f
  induction f with
  | zero =>
    intro i hi k h1 h2
    have : k = i := Nat.le_antisymm h2 h1
    rwa [this]
  | succ f ih =>
    intro i hi k h1 h2
    simp only [runEndF] at h2
    by_cases hlt : i + 1 < n
    · simp only [hlt, if_true] at h2
      by_cases hp : p (i+1) = true
      · simp only [hp, if_true] at h2
        rcases Nat.eq_or_lt_of_le h1 with heq | hlt2
        · rwa [← heq]
        · exact ih (i+1) hp k hlt2 h2
      · simp only [Bool.not_eq_true] at hp
        simp only [hp] at h2
        simp only [Bool.false_eq_true, if_false] at h2
        have : k = i := Nat.le_antisymm h2 h1
        rwa [this]
    · simp only [hlt, if_false] at h2
      have : k = i := Nat.le_antisymm h2 h1
      rwa [this]

theorem runEndF_next (p : Nat → Bool) (n : Nat) :
    ∀ f i, i < n → n ≤ i + 1 + f →
      runEndF p n f i = n - 1 ∨ p (runEndF p n f i + 1) = false := by
  intro f
  induction f with
  | zero =>
    intro i h1 h2
    left
    simp only [runEndF]
    omega
  | succ f ih =>
    intro i h1 h2
    simp only [runEndF]
    by_cases hlt : i + 1 < n
    · simp only [hlt, if_true]
      by_cases hp : p (i+1) = true
      · simp only [hp, if_true]
        exact ih (i+1) hlt (by omega)
      · simp only [Bool.not_eq_true] at hp
        simp only [hp, Bool.false_eq_true, if_false]
        right
        trivial
    · simp only [hlt, if_false]
      left
      omega

theorem runsFromF_mem (p : Nat → Bool) (n : Nat) :
    ∀ f i, n ≤ i + f → ∀ r ∈ runsFromF p n f i,
      i ≤ r.1 ∧ r.1 ≤ r.2 ∧ r.2 < n ∧
      (∀ k, r.1 ≤ k → k ≤ r.2 → p k = true) ∧
      (r.2 = n - 1 ∨ p (r.2 + 1) = false) := by
  intro f
  induction f with
  | zero => intro i _ r hr; simp [runsFromF] at hr
  | succ f ih =>
    intro i hfuel r hr
    simp only [runsFromF] at hr
    by_cases hin : i < n
    · simp only [hin, if_true] at hr
      by_cases hp : p i = true
      · simp only [hp, if_true] at hr
        rcases List.mem_cons.mp hr with heq | htail
        · subst heq
          refine ⟨Nat.le_refl i, runEndF_ge p n (n - i) i, runEndF_lt p n (n - i) i hin, ?_, ?_⟩
          · exact runEndF_true p n (n - i) i hp
          · exact runEndF_next p n (n - i) i hin (by omega)
        · have hj := runEndF_ge p n (n - i) i
          have := ih (runEndF p n (n - i) i + 1) (by omega) r htail
          exact ⟨by omega, this.2.1, this.2.2.1, this.2.2.2.1, this.2.2.2.2⟩
      · simp only [Bool.not_eq_true] at hp
        simp only [hp, Bool.false_eq_true, if_false] at hr
        have := ih (i+1) (by omega) r hr
        exact ⟨by omega, this.2.1, this.2.2.1, this.2.2.2.1, this.2.2.2.2⟩
    · simp only [hin, if_false] at hr
      simp at hr

theorem runsFromF_left (p : Nat → Bool) (n : Nat) :
    ∀ f i, n ≤ i + f → ∀ r ∈ runsFromF p n f i, r.1 = i ∨ p (r.1 - 1) = false := by
  intro f
  induction f with
  | zero => intro i _ r hr; simp [runsFromF] at hr
  | succ f ih =>
    intro i hfuel r hr
    simp only [runsFromF] at hr
    by_cases hin : i < n
    · simp only [hin, if_true] at hr
      by_cases hp : p i = true
      · simp only [hp, if_true] at hr
        rcases List.mem_cons.mp hr with heq | htail
        · subst heq; left; rfl
        · have hj := runEndF_ge p n (n - i) i
          have hftail : n ≤ (runEndF p n (n - i) i + 1) + f := by omega
          rcases ih (runEndF p n (n - i) i + 1) hftail r htail with hstart | hfalse
          · -- the next run cannot start immediately after this one
            have hmem := runsFromF_mem p n f (runEndF p n (n - i) i + 1) hftail r htail
            have hrtrue : p r.1 = true :=
              hmem.2.2.2.1 r.1 (Nat.le_refl r.1) hmem.2.1
            rcases runEndF_next p n (n - i) i hin (by omega) with hend | hnext
            · -- run ends at n-1, so nothing follows: contradiction with membership
              exfalso
              have h1 := hmem.1
              have h2 := hmem.2.2.1
              omega
            · exfalso
              rw [hstart] at hrtrue
              rw [hrtrue] at hnext
              exact Bool.true_eq_false.mp hnext
          · right; exact hfalse
      · simp only [Bool.not_eq_true] at hp
        simp only [hp, Bool.false_eq_true, if_false] at hr
        rcases ih (i+1) (by omega) r hr with hstart | hfalse
        · right
          rw [hstart]
          simpa using hp
        · right; exact hfalse
    · simp only [hin, if_false] at hr
      simp at hr

theorem runsFromF_chain (p : Nat → Bool) (n : Nat) :
    ∀ f i, n ≤ i + f →
      List.Chain' (fun a b : Nat × Nat => a.2 < b.1) (runsFromF p n f i) := by
  intro f
  induction f with
  | zero => intro i _; simp [runsFromF]
  | succ f ih =>
    intro i hfuel
    simp only [runsFromF]
    by_cases hin : i < n
    · simp only [hin, if_true]
      by_cases hp : p i = true
      · simp only [hp, if_true]
        have hj := runEndF_ge p n (n - i) i
        have hftail : n ≤ (runEndF p n (n - i) i + 1) + f := by omega
        refine List.chain'_cons'.mpr ⟨?_, ih _ hftail⟩
        intro b hb
        have hbmem : b ∈ runsFromF p n f (runEndF p n (n - i) i + 1) :=
          List.mem_of_mem_head? hb
        have := (runsFromF_mem p n f _ hftail b hbmem).1
        omega
      · simp only [Bool.not_eq_true] at hp
        simp only [hp, Bool.false_eq_true, if_false]
        exact ih (i+1) (by omega)
    · simp only [hin, if_false]
      simp

theorem runsFromF_no_true (p : Nat → Bool) (n : Nat)
    (hp : ∀ k, k < n → p k = false) : ∀ f i, runsFromF p n f i = [] := by
  intro f
  induction f with
  | zero => intro i; rfl
  | succ f ih =>
    intro i
    simp only [runsFromF]
    by_cases hin : i < n
    · simp only [hin, if_true, hp i hin, Bool.false_eq_true, if_false]
      exact ih (i+1)
    · simp only [hin, if_false]

/-! ## Runs of a boolean list -/

theorem getD_map_bool (x : List ℚ) (f : ℚ → Bool) (i : Nat) (h : i < x.length) :
    (x.map f).getD i false = f (x.getD i 0) := by
  rw [List.getD_eq_getElem?_getD, List.getD_eq_getElem?_getD, List.getElem?_map]
  rw [List.getElem?_eq_getElem h]
  simp

theorem eventRuns_mem (b : List Bool) : ∀ r ∈ eventRuns b,
    r.1 ≤ r.2 ∧ r.2 < b.length ∧
    (∀ k, r.1 ≤ k → k ≤ r.2 → b.getD k false = true) ∧
    (0 < r.1 → b.getD (r.1 - 1) false = false) ∧
    (r.2 + 1 < b.length → b.getD (r.2 + 1) false = false) := by
  intro r hr
  have hfuel : b.length ≤ 0 + b.length := by omega
  have hmem := runsFromF_mem (fun i => b.getD i false) b.length b.length 0 hfuel r hr
  have hleft := runsFromF_left (fun i => b.getD i false) b.length b.length 0 hfuel r hr
  refine ⟨hmem.2.1, hmem.2.2.1, hmem.2.2.2.1, ?_, ?_⟩
  · intro hpos
    rcases hleft with h0 | hfalse
    · omega
    · exact hfalse
  · intro hlt
    rcases hmem.2.2.2.2 with hend | hfalse
    · omega
    · exact hfalse

theorem eventRuns_chain (b : List Bool) :
    List.Chain' (fun a c : Nat × Nat => a.2 < c.1) (eventRuns b) :=
  runsFromF_chain (fun i => b.getD i false) b.length b.length 0 (by omega)

theorem eventRuns_no_true (b : List Bool)
    (h : ∀ k, k < b.length → b.getD k false = false) : eventRuns b = [] :=
  runsFromF_no_true (fun i => b.getD i false) b.length h b.length 0

/-! ## Maximum of a slice -/

theorem foldl_max_init (l : List ℚ) : ∀ init : ℚ, init ≤ l.foldl max init := by
  induction l with
  | nil => intro init; exact le_refl init
  | cons a l ih =>
    intro init
    calc init ≤ max init a := le_max_left init a
    _ ≤ (l.foldl max (max init a)) := ih (max init a)

theorem foldl_max_mem (l : List ℚ) : ∀ init a, a ∈ l → a ≤ l.foldl max init := by
  induction l with
  | nil => intro _ a ha; simp at ha
  | cons c l ih =>
    intro init a ha
    rcases List.mem_cons.mp ha with heq | hmem
    · subst heq
      calc a ≤ max init a := le_max_right init a
      _ ≤ l.foldl max (max init a) := foldl_max_init l (max init a)
    · exact ih (max init c) a hmem

theorem foldl_max_cases (l : List ℚ) :
    ∀ init, l.foldl max init = init ∨ l.foldl max init ∈ l := by
  induction l with
  | nil => intro init; left; rfl
  | cons c l ih =>
    intro init
    rcases ih (max init c) with h | h
    · simp only [List.foldl_cons]
      rcases max_choice init c with hm | hm
      · rw [h, hm]; left; rfl
      · rw [h, hm]; right; exact List.mem_cons_self c l
    · right
      simp only [List.foldl_cons]
      exact List.mem_cons_of_mem c h

theorem getD_mem_slice (x : List ℚ) (s t j : Nat) (h1 : s ≤ j) (h2 : j ≤ t)
    (h3 : j < x.length) : x.getD j 0 ∈ (x.drop s).take (t + 1 - s) := by
  have hds : j - s < (x.drop s).length := by
    rw [List.length_drop]; omega
  have htk : j - s < t + 1 - s := by omega
  refine List.mem_iff_getElem.mpr ⟨j - s, ?_, ?_⟩
  · rw [List.length_take, List.length_drop]; omega
  · rw [List.getElem_take, List.getElem_drop]
    rw [List.getD_eq_getElem?_getD, List.getElem?_eq_getElem h3]
    simp only [Option.getD_some]
    congr 1
    omega

theorem slice_mem_getD (x : List ℚ) (s t : Nat) (a : ℚ)
    (ha : a ∈ (x.drop s).take (t + 1 - s)) :
    ∃ j, s ≤ j ∧ j ≤ t ∧ j < x.length ∧ x.getD j 0 = a := by
  rcases List.mem_iff_getElem.mp ha with ⟨i, hi, hget⟩
  have hi1 : i < t + 1 - s := by
    have := hi
    rw [List.length_take] at this
    omega
  have hi2 : i < (x.drop s).length := by
    have := hi
    rw [List.length_take] at this
    omega
  have hi3 : s + i < x.length := by
    rw [List.length_drop] at hi2
    omega
  refine ⟨s + i, by omega, by omega, hi3, ?_⟩
  rw [← hget, List.getElem_take, List.getElem_drop]
  rw [List.getD_eq_getElem?_getD, List.getElem?_eq_getElem hi3]
  simp

theorem sliceMax_isMax (x : List ℚ) (s t : Nat) (hst : s ≤ t) (ht : t < x.length) :
    (∀ j, s ≤ j → j ≤ t → x.getD j 0 ≤ sliceMax x s t) ∧
    (∃ j, s ≤ j ∧ j ≤ t ∧ x.getD j 0 = sliceMax x s t) := by
  constructor
  · intro j h1 h2
    exact foldl_max_mem _ _ _ (getD_mem_slice x s t j h1 h2 (by omega))
  · rcases foldl_max_cases ((x.drop s).take (t + 1 - s)) (x.getD s 0) with h | h
    · exact ⟨s, Nat.le_refl s, hst, h.symm ▸ rfl⟩
    · rcases slice_mem_getD x s t _ h with ⟨j, hj1, hj2, _, hj4⟩
      exact ⟨j, hj1, hj2, hj4⟩

/-! ## Shape of a successful find_threshold_crossing_events call -/

theorem fThCE_ok_cases (x : List ℚ) (th : ℚ) (mode : String)
    (runs : List (Nat × Nat)) (peaks : List ℚ)
    (hok : find_threshold_crossing_events x th mode = .ok (runs, peaks)) :
    (mode = "below" ∧ runs = eventRuns (x.map (fun v => decide (v < th))) ∧
      peaks = runs.map (fun r => sliceMax x r.1 r.2)) ∨
    (mode = "above" ∧ runs = eventRuns (x.map (fun v => decide (v > th))) ∧
      peaks = runs.map (fun r => sliceMax x r.1 r.2)) := by
  by_cases hb : mode = "below"
  · left
    refine ⟨hb, ?_⟩
    simp only [find_threshold_crossing_events, hb, if_true] at hok
    have h1 := congrArg (fun z => z.1) (Except.ok.inj hok)
    have h2 := congrArg (fun z => z.2) (Except.ok.inj hok)
    simp at h1 h2
    exact ⟨h1.symm, by rw [← h1, ← h2]⟩
  · by_cases ha : mode = "above"
    · right
      refine ⟨ha, ?_⟩
      simp only [find_threshold_crossing_events, hb, ha, if_true, if_false] at hok
      have h1 := congrArg (fun z => z.1) (Except.ok.inj hok)
      have h2 := congrArg (fun z => z.2) (Except.ok.inj hok)
      simp at h1 h2
      exact ⟨h1.symm, by rw [← h1, ← h2]⟩
    · exfalso
      simp only [find_threshold_crossing_events, hb, ha, if_false] at hok
      exact Except.noConfusion hok

/-- Claim C4.  For every sample sequence `x`, threshold, and mode in
`{above, below}`, every index inside every run returned by
`find_threshold_crossing_events` satisfies the strict predicate
(`x[i] > threshold` for `above`, `x[i] < threshold` for `below`; equality
never counts), the index immediately before and immediately after each run
(when in range) does not satisfy it, and the runs are non-overlapping with
strictly increasing start indices (consecutive runs satisfy
`stop < next start`). -/
theorem C4_runs_predicate_exact (x : List ℚ) (th : ℚ) (mode : String)
    (runs : List (Nat × Nat)) (peaks : List ℚ)
    (hok : find_threshold_crossing_events x th mode = .ok (runs, peaks)) :
    List.Chain' (fun a b : Nat × Nat => a.2 < b.1) runs ∧
    ∀ r ∈ runs, r.1 ≤ r.2 ∧ r.2 < x.length ∧
      (∀ k, r.1 ≤ k → k ≤ r.2 →
        (mode = "above" → x.getD k 0 > th) ∧ (mode = "below" → x.getD k 0 < th)) ∧
      (0 < r.1 →
        (mode = "above" → ¬(x.getD (r.1 - 1) 0 > th)) ∧
        (mode = "below" → ¬(x.getD (r.1 - 1) 0 < th))) ∧
      (r.2 + 1 < x.length →
        (mode = "above" → ¬(x.getD (r.2 + 1) 0 > th)) ∧
        (mode = "below" → ¬(x.getD (r.2 + 1) 0 < th))) := by
  rcases fThCE_ok_cases x th mode runs peaks hok with ⟨hm, hruns, _⟩ | ⟨hm, hruns, _⟩
  · -- mode = "below"
    have hno : mode ≠ "above" := by rw [hm]; decide
    subst hruns
    set b := x.map (fun v => decide (v < th)) with hb
    have hlen : b.length = x.length := by rw [hb]; exact List.length_map x _
    refine ⟨eventRuns_chain b, ?_⟩
    intro r hr
    have hmem := eventRuns_mem b r hr
    have h2x : r.2 < x.length := by omega
    refine ⟨hmem.1, h2x, ?_, ?_, ?_⟩
    · intro k hk1 hk2
      refine ⟨fun hc => absurd hc hno, fun _ => ?_⟩
      have := hmem.2.2.1 k hk1 hk2
      rw [hb, getD_map_bool x _ k (by omega)] at this
      exact of_decide_eq_true this
    · intro hpos
      refine ⟨fun hc => absurd hc hno, fun _ => ?_⟩
      have := hmem.2.2.2.1 hpos
      rw [hb, getD_map_bool x _ (r.1 - 1) (by omega)] at this
      exact of_decide_eq_false this
    · intro hlt
      refine ⟨fun hc => absurd hc hno, fun _ => ?_⟩
      have := hmem.2.2.2.2 (by omega)
      rw [hb, getD_map_bool x _ (r.2 + 1) (by omega)] at this
      exact of_decide_eq_false this
  · -- mode = "above"
    have hno : mode ≠ "below" := by rw [hm]; decide
    subst hruns
    set b := x.map (fun v => decide (v > th)) with hb
    have hlen : b.length = x.length := by rw [hb]; exact List.length_map x _
    refine ⟨eventRuns_chain b, ?_⟩
    intro r hr
    have hmem := eventRuns_mem b r hr
    have h2x : r.2 < x.length := by omega
    refine ⟨hmem.1, h2x, ?_, ?_, ?_⟩
    · intro k hk1 hk2
      refine ⟨fun _ => ?_, fun hc => absurd hc hno⟩
      have := hmem.2.2.1 k hk1 hk2
      rw [hb, getD_map_bool x _ k (by omega)] at this
      exact of_decide_eq_true this
    · intro hpos
      refine ⟨fun _ => ?_, fun hc => absurd hc hno⟩
      have := hmem.2.2.2.1 hpos
      rw [hb, getD_map_bool x _ (r.1 - 1) (by omega)] at this
      exact of_decide_eq_false this
    · intro hlt
      refine ⟨fun _ => ?_, fun hc => absurd hc hno⟩
      have := hmem.2.2.2.2 (by omega)
      rw [hb, getD_map_bool x _ (r.2 + 1) (by omega)] at this
      exact of_decide_eq_false this

theorem getD_map_of_lt {α β : Type} (l : List α) (f : α → β) (dflt : β) (d0 : α)
    (k : Nat) (h : k < l.length) : (l.map f).getD k dflt = f (l.getD k d0) := by
  rw [List.getD_eq_getElem?_getD, List.getD_eq_getElem?_getD, List.getElem?_map]
  rw [List.getElem?_eq_getElem h]
  simp

theorem getD_mem_of_lt {α : Type} (l : List α) (d : α) (k : Nat) (h : k < l.length) :
    l.getD k d ∈ l := by
  rw [List.getD_eq_getElem?_getD, List.getElem?_eq_getElem h]
  simp only [Option.getD_some]
  exact List.getElem_mem h

/-- Claim C6.  For every sample sequence and threshold, the per-run peak value
reported by `find_threshold_crossing_events` is the maximum sample value over
the inclusive index span of the run, in both `mode=above` and `mode=below` (for
`mode=below` it is still the maximum, not the minimum). -/
theorem C6_peak_is_run_max (x : List ℚ) (th : ℚ) (mode : String)
    (runs : List (Nat × Nat)) (peaks : List ℚ)
    (hok : find_threshold_crossing_events x th mode = .ok (runs, peaks)) :
    peaks.length = runs.length ∧
    ∀ k, k < runs.length →
      (∀ j, (runs.getD k (0, 0)).1 ≤ j → j ≤ (runs.getD k (0, 0)).2 →
        x.getD j 0 ≤ peaks.getD k 0) ∧
      ∃ j, (runs.getD k (0, 0)).1 ≤ j ∧ j ≤ (runs.getD k (0, 0)).2 ∧
        x.getD j 0 = peaks.getD k 0 := by
  have hmain : ∀ b : List Bool, b.length = x.length →
      runs = eventRuns b → peaks = runs.map (fun r => sliceMax x r.1 r.2) →
      peaks.length = runs.length ∧
      ∀ k, k < runs.length →
        (∀ j, (runs.getD k (0, 0)).1 ≤ j → j ≤ (runs.getD k (0, 0)).2 →
          x.getD j 0 ≤ peaks.getD k 0) ∧
        ∃ j, (runs.getD k (0, 0)).1 ≤ j ∧ j ≤ (runs.getD k (0, 0)).2 ∧
          x.getD j 0 = peaks.getD k 0 := by
    intro b hblen hruns hpeaks
    constructor
    · rw [hpeaks]; exact List.length_map runs _
    · intro k hk
      have hget : peaks.getD k 0 =
          sliceMax x (runs.getD k (0, 0)).1 (runs.getD k (0, 0)).2 := by
        rw [hpeaks]
        exact getD_map_of_lt runs _ 0 (0, 0) k hk
      have hmem : runs.getD k (0, 0) ∈ runs := getD_mem_of_lt runs (0, 0) k hk
      have hrun := eventRuns_mem b (runs.getD k (0, 0)) (hruns ▸ hmem)
      have hst : (runs.getD k (0, 0)).1 ≤ (runs.getD k (0, 0)).2 := hrun.1
      have hlt : (runs.getD k (0, 0)).2 < x.length := by
        have := hrun.2.1; omega
      have hsm := sliceMax_isMax x (runs.getD k (0, 0)).1 (runs.getD k (0, 0)).2 hst hlt
      rw [hget]
      exact hsm
  rcases fThCE_ok_cases x th mode runs peaks hok with ⟨_, hruns, hpeaks⟩ | ⟨_, hruns, hpeaks⟩
  · exact hmain _ (List.length_map x _) hruns hpeaks
  · exact hmain _ (List.length_map x _) hruns hpeaks

/-- Witness for C4: the theorem instantiated at
`x = [0,2,5,2,0,0,5,0]`, threshold `4`, `mode = "above"`, whose runs are
`[(2,2),(6,6)]` with peaks `[5,5]`. -/
theorem C4_witness :
    List.Chain' (fun a b : Nat × Nat => a.2 < b.1) [(2, 2), (6, 6)] ∧
    ∀ r ∈ ([(2, 2), (6, 6)] : List (Nat × Nat)),
      r.1 ≤ r.2 ∧ r.2 < ([0, 2, 5, 2, 0, 0, 5, 0] : List ℚ).length ∧
      (∀ k, r.1 ≤ k → k ≤ r.2 →
        ("above" = "above" → ([0, 2, 5, 2, 0, 0, 5, 0] : List ℚ).getD k 0 > 4) ∧
        ("above" = "below" → ([0, 2, 5, 2, 0, 0, 5, 0] : List ℚ).getD k 0 < 4)) ∧
      (0 < r.1 →
        ("above" = "above" → ¬(([0, 2, 5, 2, 0, 0, 5, 0] : List ℚ).getD (r.1 - 1) 0 > 4)) ∧
        ("above" = "below" → ¬(([0, 2, 5, 2, 0, 0, 5, 0] : List ℚ).getD (r.1 - 1) 0 < 4))) ∧
      (r.2 + 1 < ([0, 2, 5, 2, 0, 0, 5, 0] : List ℚ).length →
        ("above" = "above" → ¬(([0, 2, 5, 2, 0, 0, 5, 0] : List ℚ).getD (r.2 + 1) 0 > 4)) ∧
        ("above" = "below" → ¬(([0, 2, 5, 2, 0, 0, 5, 0] : List ℚ).getD (r.2 + 1) 0 < 4))) :=
  C4_runs_predicate_exact [0, 2, 5, 2, 0, 0, 5, 0] 4 "above" [(2, 2), (6, 6)] [5, 5] rfl

/-- Witness for C6: the theorem instantiated at `x = [3,0,1,0,2]`,
threshold `2`, `mode = "below"`, whose single run is `(1,3)` with peak `1`
(the run maximum, although the mode is `below`). -/
theorem C6_witness :
    ([1] : List ℚ).length = ([(1, 3)] : List (Nat × Nat)).length ∧
    ∀ k, k < ([(1, 3)] : List (Nat × Nat)).length →
      (∀ j, (([(1, 3)] : List (Nat × Nat)).getD k (0, 0)).1 ≤ j →
          j ≤ (([(1, 3)] : List (Nat × Nat)).getD k (0, 0)).2 →
        ([3, 0, 1, 0, 2] : List ℚ).getD j 0 ≤ ([1] : List ℚ).getD k 0) ∧
      ∃ j, (([(1, 3)] : List (Nat × Nat)).getD k (0, 0)).1 ≤ j ∧
        j ≤ (([(1, 3)] : List (Nat × Nat)).getD k (0, 0)).2 ∧
        ([3, 0, 1, 0, 2] : List ℚ).getD j 0 = ([1] : List ℚ).getD k 0 :=
  C6_peak_is_run_max [3, 0, 1, 0, 2] 2 "below" [(1, 3)] [1] rfl

/-! ## Lengths through the pipeline -/

theorem mapM_ok_length {α β : Type} (f : α → Except String β) :
    ∀ (l : List α) (r : List β), l.mapM f = Except.ok r → r.length = l.length := by
  intro l
  induction l with
  | nil =>
    intro r h
    rw [List.mapM_nil] at h
    have := Except.ok.inj h
    rw [← this]
    rfl
  | cons a l ih =>
    intro r h
    rw [List.mapM_cons] at h
    cases hfa : f a with
    | error e => rw [hfa] at h; simp [Bind.bind, Except.bind] at h
    | ok b =>
      rw [hfa] at h
      cases hl : l.mapM f with
      | error e => rw [hl] at h; simp [Bind.bind, Except.bind] at h
      | ok bs =>
        rw [hl] at h
        simp only [Bind.bind, Except.bind] at h
        have hinj := Except.ok.inj h
        rw [← hinj]
        simp only [List.length_cons]
        rw [ih bs hl]

theorem maskFilter_length_congr {α β : Type} :
    ∀ (mask : List Bool) (l1 : List α) (l2 : List β), l1.length = l2.length →
      (maskFilter mask l1).length = (maskFilter mask l2).length := by
  intro mask
  induction mask with
  | nil =>
    intro l1 l2 _
    simp [maskFilter]
  | cons mb mask ih =>
    intro l1 l2 h
    cases l1 with
    | nil =>
      cases l2 with
      | nil => rfl
      | cons b l2 => simp at h
    | cons a l1 =>
      cases l2 with
      | nil => simp at h
      | cons b l2 =>
        simp only [List.length_cons] at h
        have h' : l1.length = l2.length := by omega
        have hih := ih l1 l2 h'
        cases mb with
        | false =>
          simp [maskFilter] at hih ⊢
          omega
        | true =>
          simp [maskFilter] at hih ⊢
          omega

theorem durFilter_lengths (keep : Nat × Nat → Bool) (b : List (Nat × Nat))
    (m : List ℚ) (e : List (Nat × Nat)) (hm : b.length = m.length)
    (he : b.length = e.length) :
    (durFilter keep b m e).1.length = (durFilter keep b m e).2.1.length ∧
    (durFilter keep b m e).1.length = (durFilter keep b m e).2.2.length := by
  unfold durFilter
  exact ⟨maskFilter_length_congr _ b m hm, maskFilter_length_congr _ b e he⟩

theorem geb_filtered_lengths (x : List ℚ) (pth sth : ℚ)
    (minThL minL maxL : Option ℚ) (ds : ℚ) (mode : String) (t : EventTriple)
    (h : geb_filtered x pth sth minThL minL maxL ds mode = .ok t) :
    t.1.length = t.2.1.length ∧ t.1.length = t.2.2.length := by
  cases hse : survivingEvents x pth minThL ds mode with
  | error e =>
    rw [geb_filtered, hse] at h
    exact Except.noConfusion h
  | ok events1 =>
    rw [geb_filtered, hse] at h
    simp only at h
    by_cases hz : events1.length = 0
    · rw [if_pos hz] at h
      have := Except.ok.inj h
      rw [← this]
      exact ⟨rfl, rfl⟩
    · rw [if_neg hz] at h
      cases hct : checkThresholds pth sth mode with
      | error e => rw [hct] at h; exact Except.noConfusion h
      | ok u =>
        rw [hct] at h
        simp only at h
        cases hf2 : find_threshold_crossing_events x sth mode with
        | error e => rw [hf2] at h; exact Except.noConfusion h
        | ok pr =>
          obtain ⟨bounds0, broaderMaxes⟩ := pr
          rw [hf2] at h
          simp only at h
          cases hb1 : fancyIndex bounds0 (events1.map
              (fun ev => (searchsortedLeft (bounds0.map Prod.fst) ev.1 : Int) - 1)) with
          | error e => rw [hb1] at h; exact Except.noConfusion h
          | ok bounds1 =>
            rw [hb1] at h
            simp only at h
            cases hm1 : fancyIndex broaderMaxes (events1.map
                (fun ev => (searchsortedLeft (bounds0.map Prod.fst) ev.1 : Int) - 1)) with
            | error e => rw [hm1] at h; exact Except.noConfusion h
            | ok maxes1 =>
              rw [hm1] at h
              simp only at h
              have hlb : bounds1.length = events1.length := by
                have := mapM_ok_length (intGet bounds0) _ _ hb1
                rw [this]
                exact List.length_map events1 _
              have hlm : maxes1.length = events1.length := by
                have := mapM_ok_length (intGet broaderMaxes) _ _ hm1
                rw [this]
                exact List.length_map events1 _
              have hpos : 0 < events1.length := by omega
              cases minL with
              | none =>
                cases maxL with
                | none =>
                  simp only at h
                  have := Except.ok.inj h
                  rw [← this]
                  exact ⟨by rw [hlb, hlm], by rw [hlb]⟩
                | some mv =>
                  simp only at h
                  rw [if_pos hpos] at h
                  have := Except.ok.inj h
                  rw [← this]
                  exact durFilter_lengths _ _ _ _ (by rw [hlb, hlm]) (by rw [hlb])
              | some mv1 =>
                simp only at h
                rw [if_pos hpos] at h
                cases maxL with
                | none =>
                  simp only at h
                  have := Except.ok.inj h
                  rw [← this]
                  exact durFilter_lengths _ _ _ _ (by rw [hlb, hlm]) (by rw [hlb])
                | some mv2 =>
                  simp only at h
                  have hd1 := durFilter_lengths
                    (fun bb => decide (((bb.2 : ℚ) - (bb.1 : ℚ) + 1) * ds ≥ mv1))
                    bounds1 maxes1 events1 (by rw [hlb, hlm]) (by rw [hlb])
                  by_cases hp2 : 0 < (durFilter
                      (fun bb => decide (((bb.2 : ℚ) - (bb.1 : ℚ) + 1) * ds ≥ mv1))
                      bounds1 maxes1 events1).2.2.length
                  · rw [if_pos hp2] at h
                    have := Except.ok.inj h
                    rw [← this]
                    exact durFilter_lengths _ _ _ _ hd1.1 hd1.2
                  · rw [if_neg hp2] at h
                    have := Except.ok.inj h
                    rw [← this]
                    exact hd1

/-- Claim C10.  Every call to `get_events_boundaries` that returns does so with
exactly three sequences (`bounds`, `maxes`, `events`) of equal length —
including the empty-result case, where all three are empty — so each
retained window is paired with exactly one peak value and exactly one
primary-threshold run. -/
theorem C10_equal_lengths (x : List ℚ) (pth sth : ℚ)
    (minThL minL maxL : Option ℚ) (ds : ℚ) (mode : String)
    (b : List (Nat × Nat)) (m : List ℚ) (e : List (Nat × Nat))
    (hok : get_events_boundaries x pth sth minThL minL maxL ds mode = .ok (b, m, e)) :
    b.length = m.length ∧ m.length = e.length := by
  cases hf : geb_filtered x pth sth minThL minL maxL ds mode with
  | error err =>
    rw [get_events_boundaries, hf] at hok
    exact Except.noConfusion hok
  | ok t =>
    rw [get_events_boundaries, hf] at hok
    simp only at hok
    by_cases hz : t.2.2.length = 0
    · rw [if_pos hz] at hok
      have h := Except.ok.inj hok
      have hb := congrArg (fun z : EventTriple => z.1) h
      have hm := congrArg (fun z : EventTriple => z.2.1) h
      have he := congrArg (fun z : EventTriple => z.2.2) h
      simp only at hb hm he
      rw [← hb, ← hm, ← he]
      exact ⟨rfl, rfl⟩
    · rw [if_neg hz] at hok
      have h := Except.ok.inj hok
      have hb := congrArg (fun z : EventTriple => z.1) h
      have hm := congrArg (fun z : EventTriple => z.2.1) h
      have he := congrArg (fun z : EventTriple => z.2.2) h
      simp only at hb hm he
      rw [← hb, ← hm, ← he]
      constructor
      · simp [uniqueStage]
      · simp [uniqueStage]

/-- Witness for C10: the theorem instantiated at
`x = [0,2,5,2,0,0,5,0]`, thresholds `(4, 1)`, `mode = "above"`, where the
call returns `([(1,3)], [5], [(2,2)])`. -/
theorem C10_witness :
    ([(1, 3)] : List (Nat × Nat)).length = ([5] : List ℚ).length ∧
    ([5] : List ℚ).length = ([(2, 2)] : List (Nat × Nat)).length :=
  C10_equal_lengths [0, 2, 5, 2, 0, 0, 5, 0] 4 1 none none none 1 "above"
    [(1, 3)] [5] [(2, 2)] rfl

/-! ## Usage errors -/

theorem fThCE_bad_mode (x : List ℚ) (th : ℚ) (mode : String)
    (ha : mode ≠ "above") (hb : mode ≠ "below") :
    find_threshold_crossing_events x th mode =
      .error ("NotImplementedError: mode " ++ mode ++ " not understood for find_threshold_crossing_events") := by
  rw [find_threshold_crossing_events, if_neg hb, if_neg ha]

theorem survivingEvents_error (x : List ℚ) (pth : ℚ) (minThL : Option ℚ)
    (ds : ℚ) (mode : String) (e : String)
    (h : find_threshold_crossing_events x pth mode = .error e) :
    survivingEvents x pth minThL ds mode = .error e := by
  rw [survivingEvents, h]

theorem geb_filtered_of_surviving_error (x : List ℚ) (pth sth : ℚ)
    (minThL minL maxL : Option ℚ) (ds : ℚ) (mode : String) (e : String)
    (h : survivingEvents x pth minThL ds mode = .error e) :
    geb_filtered x pth sth minThL minL maxL ds mode = .error e := by
  rw [geb_filtered, h]

theorem geb_of_filtered_error (x : List ℚ) (pth sth : ℚ)
    (minThL minL maxL : Option ℚ) (ds : ℚ) (mode : String) (e : String)
    (h : geb_filtered x pth sth minThL minL maxL ds mode = .error e) :
    get_events_boundaries x pth sth minThL minL maxL ds mode = .error e := by
  rw [get_events_boundaries, h]

theorem checkThresholds_violation (pth sth : ℚ) (mode : String)
    (h : (mode = "above" ∧ pth < sth) ∨ (mode = "below" ∧ sth < pth)) :
    checkThresholds pth sth mode =
      .error "AssertionError: Secondary Threshold by definition should include more data than Primary Threshold" := by
  rcases h with ⟨hm, hlt⟩ | ⟨hm, hlt⟩
  · rw [checkThresholds, if_pos hm, if_neg (not_le.mpr hlt)]
  · have hne : mode ≠ "above" := by rw [hm]; decide
    rw [checkThresholds, if_neg hne, if_pos hm]
    rw [if_neg (not_le.mpr hlt)]

/-- Claim C9.  The function `get_events_boundaries` raises an error and aborts with no
partial result (modelled by returning `Except.error`, so no output exists)
whenever (i) the input has more than one dimension after squeezing,
(ii) the `mode` argument is neither `above` nor `below`, or (iii) the
directional threshold constraint is violated (`SecondaryThreshold >
PrimaryThreshold` in `mode=above`, `SecondaryThreshold < PrimaryThreshold`
in `mode=below`) while at least one primary run survives the
`minThresholdLength` filter. -/
theorem C9_usage_errors (shape : List Nat) (x : List ℚ) (pth sth : ℚ)
    (minThL minL maxL : Option ℚ) (ds : ℚ) (mode : String) :
    (1 < (squeezeShape shape).length →
      ∃ msg, get_events_boundaries_nd shape x pth sth minThL minL maxL ds mode =
        .error msg) ∧
    (mode ≠ "above" → mode ≠ "below" →
      ∃ msg, get_events_boundaries_nd shape x pth sth minThL minL maxL ds mode =
        .error msg) ∧
    (∀ evs : List (Nat × Nat), ¬(1 < (squeezeShape shape).length) →
      survivingEvents x pth minThL ds mode = .ok evs → evs ≠ [] →
      ((mode = "above" ∧ pth < sth) ∨ (mode = "below" ∧ sth < pth)) →
      ∃ msg, get_events_boundaries_nd shape x pth sth minThL minL maxL ds mode =
        .error msg) := by
  refine ⟨?_, ?_, ?_⟩
  · intro hdim
    exact ⟨_, by rw [get_events_boundaries_nd, if_pos hdim]⟩
  · intro ha hb
    by_cases hdim : 1 < (squeezeShape shape).length
    · exact ⟨_, by rw [get_events_boundaries_nd, if_pos hdim]⟩
    · refine ⟨"NotImplementedError: mode " ++ mode ++ " not understood for find_threshold_crossing_events", ?_⟩
      rw [get_events_boundaries_nd, if_neg hdim]
      exact geb_of_filtered_error _ _ _ _ _ _ _ _ _
        (geb_filtered_of_surviving_error _ _ _ _ _ _ _ _ _
          (survivingEvents_error _ _ _ _ _ _ (fThCE_bad_mode x pth mode ha hb)))
  · intro evs hdim hsurv hne hviol
    refine ⟨"AssertionError: Secondary Threshold by definition should include more data than Primary Threshold", ?_⟩
    rw [get_events_boundaries_nd, if_neg hdim]
    apply geb_of_filtered_error
    rw [geb_filtered, hsurv]
    simp only
    have hlen : ¬(evs.length = 0) := by
      intro hc
      exact hne (List.length_eq_zero.mp hc)
    rw [if_neg hlen, checkThresholds_violation pth sth mode hviol]

/-- Witness for C9: the three error modes exercised at concrete inputs —
a genuinely two-dimensional shape `[2,2]`; an unsupported mode `"wat"`;
and `mode=above` with `SecondaryThreshold = 5 > 4 = PrimaryThreshold`
while the primary run `(1,1)` of `x = [0,5,0]` survives. -/
theorem C9_witness :
    (∃ msg, get_events_boundaries_nd [2, 2] [0, 5, 0, 2] 4 1 none none none 1 "above" =
      .error msg) ∧
    (∃ msg, get_events_boundaries_nd [3] [0, 5, 0] 4 1 none none none 1 "wat" =
      .error msg) ∧
    (∃ msg, get_events_boundaries_nd [3] [0, 5, 0] 4 5 none none none 1 "above" =
      .error msg) :=
  ⟨(C9_usage_errors [2, 2] [0, 5, 0, 2] 4 1 none none none 1 "above").1 (by decide),
   (C9_usage_errors [3] [0, 5, 0] 4 1 none none none 1 "wat").2.1 (by decide) (by decide),
   (C9_usage_errors [3] [0, 5, 0] 4 5 none none none 1 "above").2.2 [(1, 1)] (by decide)
     rfl (by decide) (Or.inl ⟨rfl, by norm_num⟩)⟩

/-! ## Deduplication stage -/

theorem sortedDedup_sorted_lt (s : List Nat) :
    List.Sorted (· < ·) (List.insertionSort (· ≤ ·) s.dedup) := by
  have hs : List.Sorted (· ≤ ·) (List.insertionSort (· ≤ ·) s.dedup) :=
    List.sorted_insertionSort _ _
  have hn : (List.insertionSort (· ≤ ·) s.dedup).Nodup :=
    (List.perm_insertionSort _ _).nodup_iff.mpr (List.nodup_dedup s)
  exact hs.lt_of_le hn

theorem mem_sortedDedup (s : List Nat) (v : Nat) :
    v ∈ List.insertionSort (· ≤ ·) s.dedup ↔ v ∈ s :=
  ((List.perm_insertionSort _ _).mem_iff).trans List.mem_dedup

theorem getD_ne_of_lt_indexOf {α : Type} [DecidableEq α] :
    ∀ (s : List α) (v : α) (j : Nat) (d : α), j < s.indexOf v → s.getD j d ≠ v := by
  intro s
  induction s with
  | nil =>
    intro v j d h
    rw [List.indexOf_nil] at h
    omega
  | cons a s ih =>
    intro v j d h
    by_cases hav : a = v
    · rw [List.indexOf_cons_eq s hav] at h
      omega
    · rw [List.indexOf_cons_ne s hav] at h
      cases j with
      | zero => simpa using hav
      | succ j =>
        rw [List.getD_cons_succ]
        exact ih v j d (by omega)

theorem getD_indexOf {α : Type} [DecidableEq α] (s : List α) (v : α) (d : α)
    (hv : v ∈ s) : s.getD (s.indexOf v) d = v := by
  have h := List.indexOf_lt_length.mpr hv
  rw [List.getD_eq_getElem?_getD, List.getElem?_eq_getElem h]
  simp only [Option.getD_some]
  exact List.indexOf_get h

/-- Claim C3.  For every input on which `get_events_boundaries` returns a
non-empty result, the returned windows are deduplicated by window start
index: the start indices are strictly increasing (so the number of distinct
start indices equals the number of returned windows and the order is
ascending); each returned `(bounds, max, event)` triple is the first
entry of the pre-deduplication candidate triple (`geb_filtered`) carrying
that start index, with the first-encountered peak and bounds; and,
conversely, every candidate start index survives: for each pre-dedup
candidate there is a returned window with the same start — so exactly one
occurrence per distinct secondary-run start is kept, not merely at most
one. -/
theorem C3_dedup_by_start (x : List ℚ) (pth sth : ℚ)
    (minThL minL maxL : Option ℚ) (ds : ℚ) (mode : String) (t : EventTriple)
    (hpre : geb_filtered x pth sth minThL minL maxL ds mode = .ok t)
    (B : List (Nat × Nat)) (M : List ℚ) (E : List (Nat × Nat))
    (hok : get_events_boundaries x pth sth minThL minL maxL ds mode = .ok (B, M, E))
    (hne : B ≠ []) :
    List.Chain' (fun a b : Nat × Nat => a.1 < b.1) B ∧
    (∀ k, k < B.length → ∃ i, i < t.1.length ∧ i < t.2.1.length ∧ i < t.2.2.length ∧
      t.1.getD i (0, 0) = B.getD k (0, 0) ∧
      t.2.1.getD i 0 = M.getD k 0 ∧
      t.2.2.getD i (0, 0) = E.getD k (0, 0) ∧
      ∀ j, j < i → (t.1.getD j (0, 0)).1 ≠ (B.getD k (0, 0)).1) ∧
    ∀ i, i < t.1.length → ∃ k, k < B.length ∧
      (B.getD k (0, 0)).1 = (t.1.getD i (0, 0)).1 := by
  -- reduce hok to the dedup stage
  rw [get_events_boundaries, hpre] at hok
  simp only at hok
  by_cases hz : t.2.2.length = 0
  · exfalso
    rw [if_pos hz] at hok
    have h := Except.ok.inj hok
    have hb := congrArg (fun z : EventTriple => z.1) h
    simp only at hb
    exact hne hb.symm
  · rw [if_neg hz] at hok
    have h := Except.ok.inj hok
    have hB := congrArg (fun z : EventTriple => z.1) h
    have hM := congrArg (fun z : EventTriple => z.2.1) h
    have hE := congrArg (fun z : EventTriple => z.2.2) h
    simp only [uniqueStage] at hB hM hE
    have hlen := geb_filtered_lengths x pth sth minThL minL maxL ds mode t hpre
    -- notation
    set s := t.1.map Prod.fst with hs
    set su := List.insertionSort (· ≤ ·) s.dedup with hsu
    have hslen : s.length = t.1.length := List.length_map t.1 _
    have huidx : uniqueFirstIdx s = su.map (fun v => s.indexOf v) := rfl
    -- key fact: picking the indexed bound start recovers the sorted value
    have hstart : ∀ v ∈ su, (t.1.getD (s.indexOf v) (0, 0)).1 = v := by
      intro v hv
      have hvs : v ∈ s := (mem_sortedDedup s v).mp hv
      have hidx : s.indexOf v < s.length := List.indexOf_lt_length.mpr hvs
      have h1 : s.getD (s.indexOf v) 0 = v := getD_indexOf s v 0 hvs
      rw [hs] at h1
      rw [getD_map_of_lt t.1 Prod.fst 0 (0, 0) (s.indexOf v) (by omega)] at h1
      exact h1
    have hmapfst : B.map Prod.fst = su := by
      rw [← hB]
      rw [huidx, List.map_map, List.map_map]
      exact (List.map_congr_left (fun v hv => hstart v hv)).trans (List.map_id su)
    refine ⟨?_, ?_, ?_⟩
    · -- strictly increasing starts
      have hchain : List.Chain' (fun a b : Nat => a < b) (B.map Prod.fst) := by
        rw [hmapfst]
        exact List.chain'_iff_pairwise.mpr (sortedDedup_sorted_lt s)
      exact (List.chain'_map Prod.fst).mp hchain
    · intro k hk
      have hBlen : B.length = su.length := by
        rw [← hB, huidx, List.length_map, List.length_map]
      have hksu : k < su.length := by omega
      set v := su.getD k 0 with hv
      have hvmem : v ∈ su := getD_mem_of_lt su 0 k hksu
      have hvs : v ∈ s := (mem_sortedDedup s v).mp hvmem
      have hidx : s.indexOf v < s.length := List.indexOf_lt_length.mpr hvs
      refine ⟨s.indexOf v, by omega, by omega, by omega, ?_, ?_, ?_, ?_⟩
      · rw [← hB, huidx]
        rw [getD_map_of_lt (su.map (fun w => s.indexOf w)) _ (0, 0) 0 k
          (by rw [List.length_map]; omega)]
        rw [getD_map_of_lt su _ 0 0 k hksu]
      · rw [← hM, huidx]
        rw [getD_map_of_lt (su.map (fun w => s.indexOf w)) _ 0 0 k
          (by rw [List.length_map]; omega)]
        rw [getD_map_of_lt su _ 0 0 k hksu]
      · rw [← hE, huidx]
        rw [getD_map_of_lt (su.map (fun w => s.indexOf w)) _ (0, 0) 0 k
          (by rw [List.length_map]; omega)]
        rw [getD_map_of_lt su _ 0 0 k hksu]
      · intro j hj
        have hBk : (B.getD k (0, 0)).1 = v := by
          rw [← hB, huidx]
          rw [getD_map_of_lt (su.map (fun w => s.indexOf w)) _ (0, 0) 0 k
            (by rw [List.length_map]; omega)]
          rw [getD_map_of_lt su _ 0 0 k hksu]
          exact hstart v hvmem
        rw [hBk]
        have hjs : j < s.length := by omega
        have hne2 : s.getD j 0 ≠ v := getD_ne_of_lt_indexOf s v j 0 hj
        rw [hs, getD_map_of_lt t.1 Prod.fst 0 (0, 0) j (by omega)] at hne2
        exact hne2
    · -- every candidate start survives the deduplication
      intro i hi
      have hvmem : (t.1.getD i (0, 0)).1 ∈ s := by
        rw [hs]
        rw [← getD_map_of_lt t.1 Prod.fst 0 (0, 0) i hi]
        apply getD_mem_of_lt
        rw [List.length_map]
        exact hi
      have hvsu : (t.1.getD i (0, 0)).1 ∈ su := (mem_sortedDedup s _).mpr hvmem
      rw [← hmapfst] at hvsu
      rcases List.mem_map.mp hvsu with ⟨b, hbB, hbv⟩
      rcases List.mem_iff_getElem.mp hbB with ⟨k, hk, hBk⟩
      refine ⟨k, hk, ?_⟩
      rw [List.getD_eq_getElem?_getD, List.getElem?_eq_getElem hk, Option.getD_some, hBk]
      exact hbv

/-- Witness for C3: the theorem instantiated at `x = [0,2,5,2,0,0,5,0]`,
thresholds `(4, 1)`, `mode = "above"`.  The pre-deduplication candidates are
`([(1,3),(1,3)], [5,5], [(2,2),(6,6)])` and the returned (deduplicated)
result is `([(1,3)], [5], [(2,2)])`: both candidates share the start `1`,
exactly one window with that start is returned. -/
theorem C3_witness :
    List.Chain' (fun a b : Nat × Nat => a.1 < b.1) [(1, 3)] ∧
    (∀ k, k < ([(1, 3)] : List (Nat × Nat)).length → ∃ i,
      i < (([(1, 3), (1, 3)], [5, 5], [(2, 2), (6, 6)]) : EventTriple).1.length ∧
      i < (([(1, 3), (1, 3)], [5, 5], [(2, 2), (6, 6)]) : EventTriple).2.1.length ∧
      i < (([(1, 3), (1, 3)], [5, 5], [(2, 2), (6, 6)]) : EventTriple).2.2.length ∧
      (([(1, 3), (1, 3)], [5, 5], [(2, 2), (6, 6)]) : EventTriple).1.getD i (0, 0) =
        ([(1, 3)] : List (Nat × Nat)).getD k (0, 0) ∧
      (([(1, 3), (1, 3)], [5, 5], [(2, 2), (6, 6)]) : EventTriple).2.1.getD i 0 =
        ([5] : List ℚ).getD k 0 ∧
      (([(1, 3), (1, 3)], [5, 5], [(2, 2), (6, 6)]) : EventTriple).2.2.getD i (0, 0) =
        ([(2, 2)] : List (Nat × Nat)).getD k (0, 0) ∧
      ∀ j, j < i →
        ((([(1, 3), (1, 3)], [5, 5], [(2, 2), (6, 6)]) : EventTriple).1.getD j (0, 0)).1 ≠
          (([(1, 3)] : List (Nat × Nat)).getD k (0, 0)).1) ∧
    ∀ i, i < (([(1, 3), (1, 3)], [5, 5], [(2, 2), (6, 6)]) : EventTriple).1.length →
      ∃ k, k < ([(1, 3)] : List (Nat × Nat)).length ∧
        (([(1, 3)] : List (Nat × Nat)).getD k (0, 0)).1 =
          ((([(1, 3), (1, 3)], [5, 5], [(2, 2), (6, 6)]) : EventTriple).1.getD i (0, 0)).1 :=
  C3_dedup_by_start [0, 2, 5, 2, 0, 0, 5, 0] 4 1 none none none 1 "above"
    ([(1, 3), (1, 3)], [5, 5], [(2, 2), (6, 6)]) rfl
    [(1, 3)] [5] [(2, 2)] rfl (by decide)

/-! ## Contiguous segments -/

theorem boundPairs_nil (a last : Nat) : boundPairs a [] last = [(a, last)] := rfl

theorem boundPairs_cons (a b last : Nat) (bs : List Nat) :
    boundPairs a (b :: bs) last = (a, b) :: boundPairs (b + 1) bs last := rfl

theorem boundPairs_first (last : Nat) :
    ∀ (bs : List Nat) (a : Nat), ∃ c tl, boundPairs a bs last = (a, c) :: tl := by
  intro bs
  cases bs with
  | nil => intro a; exact ⟨last, [], rfl⟩
  | cons b bs => intro a; exact ⟨b, boundPairs (b + 1) bs last, rfl⟩

theorem boundPairs_mem_last (last : Nat) :
    ∀ (bs : List Nat) (a : Nat), ∃ pr ∈ boundPairs a bs last, pr.2 = last := by
  intro bs
  induction bs with
  | nil => intro a; exact ⟨(a, last), List.mem_cons_self _ _, rfl⟩
  | cons b bs ih =>
    intro a
    rcases ih (b + 1) with ⟨pr, hmem, hlast⟩
    exact ⟨pr, by rw [boundPairs_cons]; exact List.mem_cons_of_mem _ hmem, hlast⟩

theorem boundPairs_chain (last : Nat) :
    ∀ (bs : List Nat) (a : Nat),
      List.Chain' (fun p q : Nat × Nat => q.1 = p.2 + 1) (boundPairs a bs last) := by
  intro bs
  induction bs with
  | nil => intro a; rw [boundPairs_nil]; exact List.chain'_singleton _
  | cons b bs ih =>
    intro a
    rw [boundPairs_cons]
    refine List.chain'_cons'.mpr ⟨?_, ih (b + 1)⟩
    intro q hq
    rcases boundPairs_first last bs (b + 1) with ⟨c, tl, heq⟩
    rw [heq] at hq
    simp only [List.head?_cons, Option.mem_def, Option.some.injEq] at hq
    rw [← hq]

theorem boundPairs_mem (last : Nat) :
    ∀ (bs : List Nat) (a : Nat), List.Pairwise (· < ·) bs →
      (∀ b ∈ bs, b < last) → (∀ b ∈ bs, a ≤ b) → a ≤ last →
      ∀ pr ∈ boundPairs a bs last,
        a ≤ pr.1 ∧ pr.1 ≤ pr.2 ∧ (pr.2 = last ∨ pr.2 ∈ bs) ∧
        ∀ i, pr.1 ≤ i → i < pr.2 → i ∉ bs := by
  intro bs
  induction bs with
  | nil =>
    intro a _ _ _ hal pr hpr
    rw [boundPairs_nil] at hpr
    rcases List.mem_cons.mp hpr with heq | hm
    · subst heq
      exact ⟨Nat.le_refl a, hal, Or.inl rfl, fun i _ _ hc => List.not_mem_nil i hc⟩
    · simp at hm
  | cons b bs ih =>
    intro a hsort hlt hab hal pr hpr
    have hblt : ∀ c ∈ bs, b < c := fun c hc => List.rel_of_pairwise_cons hsort hc
    rw [boundPairs_cons] at hpr
    rcases List.mem_cons.mp hpr with heq | hm
    · subst heq
      refine ⟨Nat.le_refl a, hab b (List.mem_cons_self b bs), Or.inr (List.mem_cons_self b bs), ?_⟩
      intro i h1 h2 hc
      rcases List.mem_cons.mp hc with hib | hibs
      · omega
      · have := hblt i hibs
        omega
    · have hih := ih (b + 1) hsort.of_cons
        (fun c hc => hlt c (List.mem_cons_of_mem b hc))
        (fun c hc => by have := hblt c hc; omega)
        (by have := hlt b (List.mem_cons_self b bs); omega)
        pr hm
      refine ⟨by have := hab b (List.mem_cons_self b bs); omega, hih.2.1, ?_, ?_⟩
      · rcases hih.2.2.1 with h | h
        · exact Or.inl h
        · exact Or.inr (List.mem_cons_of_mem b h)
      · intro i h1 h2 hc
        rcases List.mem_cons.mp hc with hib | hibs
        · have := hih.1; omega
        · exact hih.2.2.2 i h1 h2 hibs

theorem fancyIndex_ok (l : List ℚ) :
    ∀ idx : List Int, (∀ i ∈ idx, 0 ≤ i ∧ i < (l.length : Int)) →
      fancyIndex l idx = .ok (idx.map (fun i => l.getD i.toNat 0)) := by
  intro idx
  induction idx with
  | nil => intro _; rfl
  | cons i idx ih =>
    intro h
    have hi := h i (List.mem_cons_self i idx)
    have hrest := fun j hj => h j (List.mem_cons_of_mem i hj)
    have hig : intGet l i = .ok (l.getD i.toNat 0) := by
      have hneg : ¬ i < 0 := by omega
      have hcond : 0 ≤ i ∧ i < (l.length : Int) := ⟨hi.1, hi.2⟩
      have hb : i.toNat < l.length := by omega
      simp [intGet, hneg, hcond, List.getD_eq_getElem?_getD,
        List.getElem?_eq_getElem hb, List.get_eq_getElem]
    show (i :: idx).mapM (intGet l) = _
    rw [List.mapM_cons]
    have hihr : idx.mapM (intGet l) = .ok (idx.map (fun j => l.getD j.toNat 0)) := ih hrest
    rw [hig, hihr]
    rfl

theorem npDiff_length (l : List ℚ) : (npDiff l).length = l.length - 1 := by
  rw [npDiff, List.length_map, List.length_zip, List.length_tail]
  omega

theorem npDiff_getD (l : List ℚ) (i : Nat) (h : i + 1 < l.length) :
    (npDiff l).getD i 0 = l.getD (i + 1) 0 - l.getD i 0 := by
  have h1 : i < l.length := by omega
  have hzip : i < (l.zip l.tail).length := by
    rw [List.length_zip, List.length_tail]; omega
  rw [npDiff]
  rw [getD_map_of_lt (l.zip l.tail) _ 0 (0, 0) i hzip]
  rw [List.getD_eq_getElem?_getD, List.getElem?_eq_getElem hzip, Option.getD_some,
    List.getElem_zip]
  simp only
  rw [List.getElem_tail]
  rw [List.getD_eq_getElem?_getD, List.getElem?_eq_getElem h, Option.getD_some]
  rw [List.getD_eq_getElem?_getD, List.getElem?_eq_getElem h1, Option.getD_some]

theorem gcsBreaks_mem (data : List ℚ) (step : ℚ) (i : Nat) :
    i ∈ gcsBreaks data step ↔
      i < (npDiff data).length ∧ (npDiff data).getD i 0 ≥ 2 * step := by
  rw [gcsBreaks, List.mem_filter, List.mem_range]
  simp only [decide_eq_true_eq]

theorem gcsBreaks_sorted (data : List ℚ) (step : ℚ) :
    List.Pairwise (· < ·) (gcsBreaks data step) :=
  (List.pairwise_lt_range _).filter _

theorem gcs_ok_parts (data : List ℚ) (sv tv : List ℚ)
    (h1 : fancyIndex data
      (0 :: (gcsBreaks data (npMedian (npDiff data))).map (fun b => Int.ofNat b + 1)) = .ok sv)
    (h2 : fancyIndex data
      ((gcsBreaks data (npMedian (npDiff data))).map (fun b => Int.ofNat b) ++
        [(data.length : Int) - 1]) = .ok tv) :
    get_contiguous_segments data none = .ok (sv.zip tv) := by
  rw [get_contiguous_segments, h1, h2]

theorem gcs_eq_map_pairs (data : List ℚ) (hne : data ≠ []) :
    get_contiguous_segments data none =
      .ok ((gcsIndexPairs data).map (fun pr => (data.getD pr.1 0, data.getD pr.2 0))) := by
  have hn : 0 < data.length := List.length_pos.mpr hne
  set step := npMedian (npDiff data) with hstep
  set bs := gcsBreaks data step with hbsdef
  have hblt : ∀ b ∈ bs, b < data.length - 1 := by
    intro b hb
    have h := (gcsBreaks_mem data step b).mp hb
    have := h.1
    rw [npDiff_length] at this
    exact this
  have hstarts : ∀ i ∈ (0 : Int) :: bs.map (fun b => Int.ofNat b + 1),
      0 ≤ i ∧ i < (data.length : Int) := by
    intro i hi
    rcases List.mem_cons.mp hi with h0 | hm
    · subst h0; constructor <;> omega
    · rcases List.mem_map.mp hm with ⟨b, hb, rfl⟩
      have := hblt b hb
      constructor <;> (simp only [Int.ofNat_eq_natCast]; omega)
  have hstops : ∀ i ∈ bs.map (fun b => Int.ofNat b) ++ [(data.length : Int) - 1],
      0 ≤ i ∧ i < (data.length : Int) := by
    intro i hi
    rcases List.mem_append.mp hi with hm | hs
    · rcases List.mem_map.mp hm with ⟨b, hb, rfl⟩
      have := hblt b hb
      constructor <;> (simp only [Int.ofNat_eq_natCast]; omega)
    · simp only [List.mem_singleton] at hs
      subst hs
      constructor <;> omega
  have h1 := fancyIndex_ok data _ hstarts
  have h2 := fancyIndex_ok data _ hstops
  rw [gcs_ok_parts data _ _ h1 h2]
  congr 1
  have hsv : ((0 : Int) :: bs.map (fun b => Int.ofNat b + 1)).map
      (fun i => data.getD i.toNat 0) =
      ((0 : Nat) :: bs.map (fun b => b + 1)).map (fun s => data.getD s 0) := by
    simp only [List.map_cons, List.map_map]
    congr 1
  have htv : (bs.map (fun b => Int.ofNat b) ++ [(data.length : Int) - 1]).map
      (fun i => data.getD i.toNat 0) =
      (bs ++ [data.length - 1]).map (fun s => data.getD s 0) := by
    rw [List.map_append, List.map_append, List.map_map]
    congr 1
    simp only [List.map_cons, List.map_nil]
    congr 2
    omega
  rw [hsv, htv, List.zip_map]
  rw [gcsIndexPairs, boundPairs]
  rfl

/-- Claim C7, counterexample.  The claim quantifies over every sorted
position sequence, but on the empty sequence (which is sorted) the in-memory
`get_contiguous_segments` does not return a pair per maximal run — it raises
an `IndexError`: with no breaks it builds `starts = [0]` and `stops = [-1]`
and fancy-indexes the empty `data` array out of bounds. -/
theorem C7_empty_counterexample :
    List.Sorted (· ≤ ·) ([] : List ℚ) ∧
    get_contiguous_segments ([] : List ℚ) none =
      .error "IndexError: index out of bounds" :=
  ⟨List.sorted_nil, by with_unfolding_all rfl⟩

/-- Claim C7, amended.  For every *nonempty* sorted position sequence, the
in-memory `get_contiguous_segments` with `step` unspecified uses
`step = median of the consecutive differences`; a break is placed between
positions `i` and `i+1` exactly when `positions[i+1] - positions[i] ≥ 2*step`;
and the returned inclusive `(start_position, stop_position)` pairs are the
values of `positions` at the index pairs `gcsIndexPairs`, which tile the index
range `[0, n-1]` as one pair per maximal run between breaks: the first pair
starts at index `0`, some pair stops at index `n-1`, the successor of each pair
starts right after it stops, every pair satisfies `start ≤ stop`, its interior
contains no break, and its stop is a break or the final index.  In particular
`positions = [0,1,2,5,6,10]` with the default step yields segments
`[(0,2),(5,6),(10,10)]`.  On the empty position sequence the function instead
raises an `IndexError` (final conjunct), which is what forces the
nonemptiness restriction of the amendment. -/
theorem C7_segments (data : List ℚ) (hne : data ≠ [])
    (_hsorted : List.Sorted (· ≤ ·) data) :
    (get_contiguous_segments data none =
      .ok ((gcsIndexPairs data).map (fun pr => (data.getD pr.1 0, data.getD pr.2 0))) ∧
    (∀ i, i + 1 < data.length →
      (i ∈ gcsBreaks data (npMedian (npDiff data)) ↔
        data.getD (i + 1) 0 - data.getD i 0 ≥ 2 * npMedian (npDiff data))) ∧
    (∃ c tl, gcsIndexPairs data = ((0 : Nat), c) :: tl) ∧
    (∃ pr ∈ gcsIndexPairs data, pr.2 = data.length - 1) ∧
    List.Chain' (fun p q : Nat × Nat => q.1 = p.2 + 1) (gcsIndexPairs data) ∧
    (∀ pr ∈ gcsIndexPairs data, pr.1 ≤ pr.2 ∧ pr.2 ≤ data.length - 1 ∧
      (pr.2 = data.length - 1 ∨ pr.2 ∈ gcsBreaks data (npMedian (npDiff data))) ∧
      ∀ i, pr.1 ≤ i → i < pr.2 → i ∉ gcsBreaks data (npMedian (npDiff data)))) ∧
    get_contiguous_segments [0, 1, 2, 5, 6, 10] none = .ok [(0, 2), (5, 6), (10, 10)] ∧
    get_contiguous_segments ([] : List ℚ) none =
      .error "IndexError: index out of bounds" := by
  have hn : 0 < data.length := List.length_pos.mpr hne
  set step := npMedian (npDiff data) with hstep
  set bs := gcsBreaks data step with hbsdef
  have hblt : ∀ b ∈ bs, b < data.length - 1 := by
    intro b hb
    have h := (gcsBreaks_mem data step b).mp hb
    have := h.1
    rw [npDiff_length] at this
    exact this
  refine ⟨⟨gcs_eq_map_pairs data hne, ?_, ?_, ?_, ?_, ?_⟩, by with_unfolding_all rfl,
    by with_unfolding_all rfl⟩
  · intro i hi
    rw [gcsBreaks_mem]
    rw [npDiff_getD data i hi, npDiff_length]
    constructor
    · intro h
      exact h.2
    · intro h
      exact ⟨by omega, h⟩
  · exact boundPairs_first (data.length - 1) bs 0
  · exact boundPairs_mem_last (data.length - 1) bs 0
  · exact boundPairs_chain (data.length - 1) bs 0
  · intro pr hpr
    have hmem := boundPairs_mem (data.length - 1) bs 0 (gcsBreaks_sorted data step)
      hblt (fun b _ => Nat.zero_le b) (Nat.zero_le _) pr hpr
    refine ⟨hmem.2.1, ?_, hmem.2.2.1, hmem.2.2.2⟩
    rcases hmem.2.2.1 with h | h
    · omega
    · have := hblt pr.2 h
      omega

/-- Witness for the amended C7: the theorem instantiated at
`positions = [0,1,2,5,6,10]` (nonempty and sorted). -/
theorem C7_witness :
    (get_contiguous_segments [0, 1, 2, 5, 6, 10] none =
      .ok ((gcsIndexPairs [0, 1, 2, 5, 6, 10]).map
        (fun pr => (([0, 1, 2, 5, 6, 10] : List ℚ).getD pr.1 0,
          ([0, 1, 2, 5, 6, 10] : List ℚ).getD pr.2 0)))) ∧
    (∀ i, i + 1 < ([0, 1, 2, 5, 6, 10] : List ℚ).length →
      (i ∈ gcsBreaks [0, 1, 2, 5, 6, 10] (npMedian (npDiff [0, 1, 2, 5, 6, 10])) ↔
        ([0, 1, 2, 5, 6, 10] : List ℚ).getD (i + 1) 0 -
            ([0, 1, 2, 5, 6, 10] : List ℚ).getD i 0 ≥
          2 * npMedian (npDiff [0, 1, 2, 5, 6, 10]))) ∧
    (∃ c tl, gcsIndexPairs [0, 1, 2, 5, 6, 10] = ((0 : Nat), c) :: tl) ∧
    (∃ pr ∈ gcsIndexPairs [0, 1, 2, 5, 6, 10],
      pr.2 = ([0, 1, 2, 5, 6, 10] : List ℚ).length - 1) ∧
    List.Chain' (fun p q : Nat × Nat => q.1 = p.2 + 1)
      (gcsIndexPairs [0, 1, 2, 5, 6, 10]) ∧
    (∀ pr ∈ gcsIndexPairs [0, 1, 2, 5, 6, 10],
      pr.1 ≤ pr.2 ∧ pr.2 ≤ ([0, 1, 2, 5, 6, 10] : List ℚ).length - 1 ∧
      (pr.2 = ([0, 1, 2, 5, 6, 10] : List ℚ).length - 1 ∨
        pr.2 ∈ gcsBreaks [0, 1, 2, 5, 6, 10] (npMedian (npDiff [0, 1, 2, 5, 6, 10]))) ∧
      ∀ i, pr.1 ≤ i → i < pr.2 →
        i ∉ gcsBreaks [0, 1, 2, 5, 6, 10] (npMedian (npDiff [0, 1, 2, 5, 6, 10]))) ∧
    get_contiguous_segments [0, 1, 2, 5, 6, 10] none = .ok [(0, 2), (5, 6), (10, 10)] ∧
    get_contiguous_segments ([] : List ℚ) none =
      .error "IndexError: index out of bounds" := by
  have h := C7_segments [0, 1, 2, 5, 6, 10] (by decide)
    (by with_unfolding_all decide)
  exact ⟨h.1.1, h.1.2.1, h.1.2.2.1, h.1.2.2.2.1, h.1.2.2.2.2.1, h.1.2.2.2.2.2,
    h.2.1, h.2.2⟩

/-! ## Empty inputs and degenerate results -/

/-- Claim C8, counterexample.  The claim says all three core operations return
empty results on empty input without raising; but
`get_contiguous_segments([])` raises an `IndexError`: with no breaks,
`starts = [0]` and indexing the empty `data` with `[0]` is out of bounds. -/
theorem C8_counterexample :
    get_contiguous_segments [] none = .error "IndexError: index out of bounds" := by
  with_unfolding_all rfl

/-- Claim C8, amended.  For an empty input sequence,
`find_threshold_crossing_events` and `get_events_boundaries` (for a valid
mode) return empty output sequences without error, and
`find_threshold_crossing_events` returns empty runs and empty peaks whenever
no index satisfies the predicate; `get_contiguous_segments`, however, raises
an `IndexError` on empty input. -/
theorem C8_empty_inputs :
    (∀ (th : ℚ) (mode : String), mode = "above" ∨ mode = "below" →
      find_threshold_crossing_events [] th mode = .ok ([], [])) ∧
    (∀ (pth sth ds : ℚ) (minThL minL maxL : Option ℚ) (mode : String),
      mode = "above" ∨ mode = "below" →
      get_events_boundaries [] pth sth minThL minL maxL ds mode = .ok ([], [], [])) ∧
    (∀ (x : List ℚ) (th : ℚ) (mode : String) (runs : List (Nat × Nat)) (peaks : List ℚ),
      find_threshold_crossing_events x th mode = .ok (runs, peaks) →
      (∀ i, i < x.length →
        (mode = "above" → ¬(x.getD i 0 > th)) ∧ (mode = "below" → ¬(x.getD i 0 < th))) →
      runs = [] ∧ peaks = []) ∧
    get_contiguous_segments [] none = .error "IndexError: index out of bounds" := by
  refine ⟨?_, ?_, ?_, by with_unfolding_all rfl⟩
  · intro th mode hmode
    rcases hmode with rfl | rfl <;> rfl
  · intro pth sth ds minThL minL maxL mode hmode
    rcases hmode with rfl | rfl <;> cases minThL <;> rfl
  · intro x th mode runs peaks hok hnone
    rcases fThCE_ok_cases x th mode runs peaks hok with ⟨hm, hruns, hpeaks⟩ | ⟨hm, hruns, hpeaks⟩
    · have hempty : eventRuns (x.map (fun v => decide (v < th))) = [] := by
        apply eventRuns_no_true
        intro k hk
        rw [List.length_map] at hk
        rw [getD_map_bool x _ k hk]
        have := (hnone k hk).2 hm
        exact decide_eq_false this
      rw [hempty] at hruns
      subst hruns
      rw [hpeaks]
      exact ⟨rfl, rfl⟩
    · have hempty : eventRuns (x.map (fun v => decide (v > th))) = [] := by
        apply eventRuns_no_true
        intro k hk
        rw [List.length_map] at hk
        rw [getD_map_bool x _ k hk]
        have := (hnone k hk).1 hm
        exact decide_eq_false this
      rw [hempty] at hruns
      subst hruns
      rw [hpeaks]
      exact ⟨rfl, rfl⟩

/-- Witness for the amended C8: concrete instances — empty input for both
threshold functions, a never-crossing input `[0,0]` for the predicate case,
and the `IndexError` of `get_contiguous_segments` on `[]`. -/
theorem C8_witness :
    find_threshold_crossing_events [] 4 "above" = .ok ([], []) ∧
    get_events_boundaries [] 4 1 (some 2) none none 1 "above" = .ok ([], [], []) ∧
    (([] : List (Nat × Nat)) = [] ∧ ([] : List ℚ) = []) ∧
    get_contiguous_segments [] none = .error "IndexError: index out of bounds" :=
  ⟨C8_empty_inputs.1 4 "above" (Or.inl rfl),
   C8_empty_inputs.2.1 4 1 1 (some 2) none none "above" (Or.inl rfl),
   C8_empty_inputs.2.2.1 [0, 0] 4 "above" [] [] rfl (by decide),
   C8_empty_inputs.2.2.2⟩

/-! ## The searchsorted window-assignment slip -/

/-- Claim C1, evaluated at the failing input.  For
`x = [0,5,0,2,0]`, `PrimaryThreshold = 4`, `SecondaryThreshold = 1`,
`mode = above`, the surviving primary run is `(1,1)` and the secondary runs
are `(1,1)` and `(3,3)`; `np.searchsorted([1,3],[1]) - 1 = -1` wraps around
to the *last* secondary run, so the function returns the window `(3,3)` with
peak `2 < 4`: the returned window contains no primary run, and the peak is
below `PrimaryThreshold`, contradicting the claim (and the docstring of the function itself, `event.max >= PrimaryThreshold`). -/
theorem C1_misassigned_window :
    get_events_boundaries [0, 5, 0, 2, 0] 4 1 none none none 1 "above" =
      .ok ([(3, 3)], [2], [(1, 1)]) ∧
    ¬((3 : Nat) ≤ 1 ∧ (1 : Nat) ≤ 3) ∧
    (2 : ℚ) < 4 :=
  ⟨by with_unfolding_all rfl, by decide, by decide⟩

/-- Claim C2, evaluated at the claimed scenario.  For
`x = [0,2,5,2,0,0,5,0]`, primary `4`, secondary `1`, mode `above`, the claim
expects the two windows `(1,3)` and `(6,6)`; the code returns only one:
`np.searchsorted([1,6],[2,6], side=left) - 1 = [0,0]` maps the primary run
`(6,6)` to the window `(1,3)` (off by one at the tie `6`), and deduplication
collapses the two candidates to the single window `(1,3)`. -/
theorem C2_scenario_eval :
    get_events_boundaries [0, 2, 5, 2, 0, 0, 5, 0] 4 1 none none none 1 "above" =
      .ok ([(1, 3)], [5], [(2, 2)]) := by
  with_unfolding_all rfl

/-- Claim C5, evaluated.  First conjunct: the scenario of the claim
(`x = [0,2,5,2,0,0,5,0]`, primary `4`, secondary `1`, `ds = 1`,
`minLength = 3`) does return only the window `(1,3)` of duration `3`.
Second conjunct, the failing input: for `x = [0,5,0,2,2,0]`, primary `4`,
secondary `1`, `ds = 1`, `minLength = 2`, the enclosing secondary run of the
only primary run `(1,1)` is `(1,1)` with inclusive duration `1 < 2`, so
under the rule stated in the claim (minLength filtered by the *enclosing* secondary-run
duration) the result would be empty; the code instead filters by the
misassigned window `(3,4)` (duration `2`) and returns it. -/
theorem C5_duration_scope_eval :
    get_events_boundaries [0, 2, 5, 2, 0, 0, 5, 0] 4 1 none (some 3) none 1 "above" =
      .ok ([(1, 3)], [5], [(2, 2)]) ∧
    get_events_boundaries [0, 5, 0, 2, 2, 0] 4 1 none (some 2) none 1 "above" =
      .ok ([(3, 4)], [2], [(1, 1)]) :=
  ⟨by with_unfolding_all rfl, by with_unfolding_all rfl⟩
